/-
Verification of the Mamba2 selective state-space layer
(src/CountMamba/model_mamba2.py) against its natural-language
specification.

The numeric code is embedded over the real numbers: tensors become
functions from natural-number indices to ℝ, sequences become functions
from a time index to a feature vector, and the in-place cache mutations
of the Python code become explicit state passing.  Floating-point
rounding is idealized away, so the "within relative tolerance 1e-4"
clauses of the spec are settled by proving exact equality in real
arithmetic (which implies every nonnegative relative bound).

The two Triton kernels imported from the external `mamba_ssm` package
(`mamba_chunk_scan_combined`, `mamba_split_conv1d_scan_combined`) and
the `RMSNormGated` module are not part of this repository's source;
their semantics are modelled from the spec (sections 4.3, 4.4 and the
SelectiveScanCore description) where needed, and each such definition
carries a doc comment saying so.  Everything else is translated
directly from the source file.
-/
import Mathlib

open Finset

namespace CountMamba

noncomputable section

/-- Logistic sigmoid, `1 / (1 + exp (-x))`. -/
def sigmoid (x : ℝ) : ℝ := 1 / (1 + Real.exp (-x))

/-- SiLU activation `x * sigmoid x`, the `nn.SiLU` / `"silu"` activation
used by the layer. -/
def silu (x : ℝ) : ℝ := x * sigmoid x

/-- Softplus `log (1 + exp x)`, the `F.softplus` applied to the timestep
logits (`dt_softplus=True` in the bulk kernel, `F.softplus` in
`forward_stage`). -/
def softplus (x : ℝ) : ℝ := Real.log (1 + Real.exp x)

/-- Parameters of one `Mamba2` layer (class `Mamba2`, lines 11-62).
Weights are total functions on ℕ indices; only indices below the stated
dimensions are ever read.  In the source `d_inner = expand * d_model`
and `nheads = d_inner / headdim`; the code relies on `headdim ∣ d_inner`
and we carry `nheads` directly, with `d_inner = nheads * headdim`.
The in-projection has width `2*d_inner + 2*d_state + nheads`, so the
`d_mlp` computed in `forward_test`/`forward_stage` is zero and the
`z0`, `x0` slices are empty. -/
structure Mamba2Params where
  d_model : ℕ
  d_state : ℕ
  d_conv : ℕ
  headdim : ℕ
  nheads : ℕ
  chunk_size : ℕ
  in_proj_weight : ℕ → ℕ → ℝ
  conv_weight : ℕ → ℕ → ℝ
  conv_bias : ℕ → ℝ
  dt_bias : ℕ → ℝ
  A_log : ℕ → ℝ
  D : ℕ → ℝ
  norm_weight : ℕ → ℝ
  norm_eps : ℝ
  out_proj_weight : ℕ → ℕ → ℝ

/-- `d_inner`, the inner width `nheads * headdim`. -/
def Mamba2Params.d_inner (P : Mamba2Params) : ℕ := P.nheads * P.headdim

/-- `conv_dim = d_inner + 2 * d_state`, the channel count of the
depthwise convolution (line 30). -/
def Mamba2Params.conv_dim (P : Mamba2Params) : ℕ := P.d_inner + 2 * P.d_state

/-- `in_proj` applied to a single feature vector: `nn.Linear` without
bias, row `i` of the weight against the input (lines 28, 65, 113, 176). -/
def inProjVec (P : Mamba2Params) (v : ℕ → ℝ) (i : ℕ) : ℝ :=
  ∑ j ∈ range P.d_model, P.in_proj_weight i j * v j

/-- The gate slice `z` of the in-projection output
(`torch.split`, indices `[0, d_inner)`). -/
def zVec (P : Mamba2Params) (v : ℕ → ℝ) (i : ℕ) : ℝ := inProjVec P v i

/-- The conv-input slice `xBC` of the in-projection output
(indices `[d_inner, d_inner + conv_dim)`). -/
def xBCvec (P : Mamba2Params) (v : ℕ → ℝ) (c : ℕ) : ℝ :=
  inProjVec P v (P.d_inner + c)

/-- The raw timestep-logit slice `dt` of the in-projection output
(indices `[d_inner + conv_dim, d_inner + conv_dim + nheads)`). -/
def dtVec (P : Mamba2Params) (v : ℕ → ℝ) (h : ℕ) : ℝ :=
  inProjVec P v (P.d_inner + P.conv_dim + h)

/-- The per-head decay base `A = -exp (A_log)` (lines 66, 114, 192). -/
def aHead (P : Mamba2Params) (h : ℕ) : ℝ := -Real.exp (P.A_log h)

/-- Effective timestep `softplus (dt_raw + dt_bias)` (line 195, and
`dt_bias`/`dt_softplus=True` in the bulk kernel call). -/
def dtEffVec (P : Mamba2Params) (dtv : ℕ → ℝ) (h : ℕ) : ℝ :=
  softplus (dtv h + P.dt_bias h)

/-- Per-head decay factor `exp (dt_eff * A)` (line 196). -/
def decayVec (P : Mamba2Params) (dtv : ℕ → ℝ) (h : ℕ) : ℝ :=
  Real.exp (dtEffVec P dtv h * aHead P h)

/-- SSM state tensor, indexed by (head, head-dim, state-dim); the
`ssm_state` cache entry of shape `nheads × headdim × d_state`
(batch dimension is 1 in every cached call and is dropped). -/
def SsmState : Type := ℕ → ℕ → ℕ → ℝ

/-- The zero SSM state (`torch.zeros`, lines 98-105). -/
def zeroSsm : SsmState := fun _ _ _ => 0

/-- The per-layer recurrent cache entry: the convolution window
`conv_state` (channel × tap, `d_conv` taps, tap `d_conv - 1` newest) and
the SSM state (lines 91-106). -/
structure RecState where
  convWin : ℕ → ℕ → ℝ
  ssm : SsmState

/-- The zero-initialized cache entry allocated by
`_get_states_from_cache` (lines 91-106). -/
def zeroRec : RecState := ⟨fun _ _ => 0, zeroSsm⟩

/-- `torch.roll(conv_state, -1)` followed by writing the new `xBC`
vector into the last tap (lines 185-186).  Taps at or beyond
`d_conv` are never read. -/
def rollWin (P : Mamba2Params) (W : ℕ → ℕ → ℝ) (xNew : ℕ → ℝ) (c w : ℕ) : ℝ :=
  if w = P.d_conv - 1 then xNew c else W c (w + 1)

/-- The streaming convolution output: weighted sum of the window against
the depthwise kernel, plus bias, then SiLU (lines 187-189). -/
def convStepOut (P : Mamba2Params) (W : ℕ → ℕ → ℝ) (c : ℕ) : ℝ :=
  silu ((∑ w ∈ range P.d_conv, W c w * P.conv_weight c w) + P.conv_bias c)

/-- The pre-convolution `xBC` slice at time `t` of a sequence. -/
def xBCpre (P : Mamba2Params) (u : ℕ → ℕ → ℝ) (t c : ℕ) : ℝ :=
  xBCvec P (u t) c

/-- The `xBC` sequence left-padded with `d_conv - 1` zero vectors, as
`nn.Conv1d` with `padding = d_conv - 1` sees it (lines 31-39, 128). -/
def xBCpad (P : Mamba2Params) (u : ℕ → ℕ → ℝ) (j c : ℕ) : ℝ :=
  if j + 1 < P.d_conv then 0 else xBCpre P u (j + 1 - P.d_conv) c

/-- Bulk causal depthwise convolution output at time `t`, channel `c`:
`act(conv1d(xBC)[..., :-(d_conv-1)])` (lines 127-129). -/
def convBulk (P : Mamba2Params) (u : ℕ → ℕ → ℝ) (t c : ℕ) : ℝ :=
  silu ((∑ w ∈ range P.d_conv, P.conv_weight c w * xBCpad P u (t + w) c)
    + P.conv_bias c)

/-- Post-convolution `x` value, reshaped `(h p)` with `p = headdim`
(lines 130, 133). -/
def xPost (P : Mamba2Params) (u : ℕ → ℕ → ℝ) (t h p : ℕ) : ℝ :=
  convBulk P u t (h * P.headdim + p)

/-- Post-convolution `B` value (line 130). -/
def bPost (P : Mamba2Params) (u : ℕ → ℕ → ℝ) (t n : ℕ) : ℝ :=
  convBulk P u t (P.d_inner + n)

/-- Post-convolution `C` value (line 130). -/
def cPost (P : Mamba2Params) (u : ℕ → ℕ → ℝ) (t n : ℕ) : ℝ :=
  convBulk P u t (P.d_inner + P.d_state + n)

/-- The contents of the conv window cache once the first `t` steps of
sequence `u` have been absorbed: tap `w` holds the conv input of time
`t + w - d_conv`, or zero when that time is negative.  This matches
both the `F.pad(xBC, (d_conv - L, 0))` write of `forward_test`
(line 125, with `t = L`) and the roll-and-append updates of
`forward_stage`. -/
def winForm (P : Mamba2Params) (u : ℕ → ℕ → ℝ) (t c w : ℕ) : ℝ :=
  if t + w < P.d_conv then 0 else xBCpre P u (t + w - P.d_conv) c

/-- One SSM state update (lines 195-199):
`state * exp(softplus(dt + dt_bias) * A) + softplus(dt + dt_bias) * B * x`. -/
def ssmStepState (P : Mamba2Params) (S : SsmState) (dtv : ℕ → ℝ)
    (xv : ℕ → ℕ → ℝ) (Bv : ℕ → ℝ) : SsmState :=
  fun h p n => S h p n * decayVec P dtv h + dtEffVec P dtv h * Bv n * xv h p

/-- The scan output read off an (updated) SSM state (lines 200-201):
contraction of the state against `C` over the state dimension, plus the
skip term `D * x`. -/
def ssmStepY (P : Mamba2Params) (S : SsmState) (xv : ℕ → ℕ → ℝ)
    (Cv : ℕ → ℝ) (h p : ℕ) : ℝ :=
  (∑ n ∈ range P.d_state, S h p n * Cv n) + P.D h * xv h p

/-- Streaming conv output inside `forward_stage`: the cached window is
rolled, the new `xBC` vector appended, and the depthwise kernel applied
(lines 184-189). -/
def stageConvOut (P : Mamba2Params) (st : RecState) (v : ℕ → ℝ) (c : ℕ) : ℝ :=
  convStepOut P (rollWin P st.convWin (xBCvec P v)) c

/-- Streaming `x` value (line 191, reshaped by line 197). -/
def stageX (P : Mamba2Params) (st : RecState) (v : ℕ → ℝ) (h p : ℕ) : ℝ :=
  stageConvOut P st v (h * P.headdim + p)

/-- Streaming `B` value (line 191). -/
def stageB (P : Mamba2Params) (st : RecState) (v : ℕ → ℝ) (n : ℕ) : ℝ :=
  stageConvOut P st v (P.d_inner + n)

/-- Streaming `C` value (line 191). -/
def stageC (P : Mamba2Params) (st : RecState) (v : ℕ → ℝ) (n : ℕ) : ℝ :=
  stageConvOut P st v (P.d_inner + P.d_state + n)

/-- The updated SSM state written back to the cache by `forward_stage`
(line 199). -/
def stageSsm (P : Mamba2Params) (st : RecState) (v : ℕ → ℝ) : SsmState :=
  ssmStepState P st.ssm (dtVec P v) (stageX P st v) (stageB P st v)

/-- Modelled from the spec: the gated variance normalization of
section 4.4, `out = normalize_by_variance(y, eps) * weight * silu(z)`.
The `RMSNormGated` module itself is imported from the external
`mamba_ssm` package and its code is not in this repository; both the
bulk and the streaming path apply this same function to their scan
output and gate (lines 59-60, 154, 203), so the equivalence claims do
not depend on its exact formula. -/
def gnorm (P : Mamba2Params) (y z : ℕ → ℝ) (i : ℕ) : ℝ :=
  y i / Real.sqrt ((∑ j ∈ range P.d_inner, y j ^ 2) / (P.d_inner : ℝ)
    + P.norm_eps) * P.norm_weight i * silu (z i)

/-- `out_proj`: `nn.Linear` without bias from inner width back to
`d_model` (lines 62, 156, 204). -/
def outProj (P : Mamba2Params) (y : ℕ → ℝ) (o : ℕ) : ℝ :=
  ∑ i ∈ range P.d_inner, P.out_proj_weight o i * y i

/-- The flattened (`b h p -> b (h p)`) scan output of one streaming
step (line 202). -/
def stageYflat (P : Mamba2Params) (st : RecState) (v : ℕ → ℝ) (i : ℕ) : ℝ :=
  ssmStepY P (stageSsm P st v) (stageX P st v) (stageC P st v)
    (i / P.headdim) (i % P.headdim)

/-- The output vector of `forward_stage` (lines 203-206). -/
def forwardStageOut (P : Mamba2Params) (st : RecState) (v : ℕ → ℝ) (o : ℕ) : ℝ :=
  outProj P (fun i => gnorm P (stageYflat P st v) (zVec P v) i) o

/-- `forward_stage` (lines 172-206) in state-passing form: one new
input vector and the cached recurrent state in, the output vector and
the updated cache contents out. -/
def forwardStage (P : Mamba2Params) (v : ℕ → ℝ) (st : RecState) :
    (ℕ → ℝ) × RecState :=
  (forwardStageOut P st v,
    ⟨rollWin P st.convWin (xBCvec P v), stageSsm P st v⟩)

/-- Scalar linear recurrence `s_{t+1} = s_t * d t + c t`: one
(head, head-dim, state-dim) component of the sequential SSM scan. -/
def seqScalar (d c : ℕ → ℝ) (s0 : ℝ) : ℕ → ℝ
  | 0 => s0
  | t + 1 => seqScalar d c s0 t * d t + c t

/-- The SSM state after the first `t` timesteps of sequence `u` have
been processed sequentially, one `forward_stage`-style update at a
time, on the bulk (causal-conv) per-step inputs. -/
def seqSsmState (P : Mamba2Params) (u : ℕ → ℕ → ℝ) (S0 : SsmState) :
    ℕ → SsmState
  | 0 => S0
  | t + 1 => ssmStepState P (seqSsmState P u S0 t) (dtVec P (u t))
      (xPost P u t) (bPost P u t)

/-- Sequential-strategy scan output at position `t`: the state after
absorbing position `t`, contracted against `C_t`, plus the skip term. -/
def seqScanY (P : Mamba2Params) (u : ℕ → ℕ → ℝ) (S0 : SsmState)
    (t h p : ℕ) : ℝ :=
  ssmStepY P (seqSsmState P u S0 (t + 1)) (xPost P u t) (cPost P u t) h p

/-- Modelled from the spec: the chunk-boundary states of the
chunked-parallel strategy (section 4.3; the implementation,
`mamba_chunk_scan_combined`, is an external Triton kernel not in this
repository).  The state at boundary `k + 1` is the closed-form result
of folding chunk `k` — the product of the chunk's decays applied to the
previous boundary state, plus each in-chunk contribution decayed by the
factors that follow it inside the chunk. -/
def chunkBoundary (d c : ℕ → ℝ) (s0 : ℝ) (cs : ℕ) : ℕ → ℝ
  | 0 => s0
  | k + 1 =>
      (∏ j ∈ range cs, d (k * cs + j)) * chunkBoundary d c s0 cs k
        + ∑ j ∈ range cs, (∏ r ∈ Ico (j + 1) cs, d (k * cs + r)) * c (k * cs + j)

/-- Modelled from the spec: the chunked-parallel strategy's state after
global position `t` (chunk `t / cs`, offset `t % cs`): the boundary
state of the enclosing chunk decayed through offset `t % cs`, plus the
closed-form intra-chunk contributions up to that offset (section 4.3). -/
def chunkStateAt (d c : ℕ → ℝ) (s0 : ℝ) (cs t : ℕ) : ℝ :=
  (∏ r ∈ range (t % cs + 1), d (t / cs * cs + r))
      * chunkBoundary d c s0 cs (t / cs)
    + ∑ i ∈ range (t % cs + 1),
        (∏ r ∈ Ico (i + 1) (t % cs + 1), d (t / cs * cs + r)) * c (t / cs * cs + i)

/-- Modelled from the spec: chunked-parallel state after position `t`,
assembled per (head, head-dim, state-dim) component on the bulk
per-step inputs of sequence `u`. -/
def chunkedStateAt (P : Mamba2Params) (u : ℕ → ℕ → ℝ) (S0 : SsmState)
    (cs t : ℕ) : SsmState :=
  fun h p n =>
    chunkStateAt (fun s => decayVec P (dtVec P (u s)) h)
      (fun s => dtEffVec P (dtVec P (u s)) h * bPost P u s n * xPost P u s h p)
      (S0 h p n) cs t

/-- Chunked-parallel scan output at position `t` (the per-position `y`
of `mamba_chunk_scan_combined`, modelled from the spec). -/
def chunkedScanY (P : Mamba2Params) (u : ℕ → ℕ → ℝ) (S0 : SsmState)
    (cs t h p : ℕ) : ℝ :=
  ssmStepY P (chunkedStateAt P u S0 cs t) (xPost P u t) (cPost P u t) h p

/-- Modelled from the spec: the final state emitted by the
chunked-parallel scan over a length-`L` sequence
(`return_final_states=True`, line 145); for `L = 0` it is the initial
state. -/
def chunkStateAfter (d c : ℕ → ℝ) (s0 : ℝ) (cs L : ℕ) : ℝ :=
  match L with
  | 0 => s0
  | t + 1 => chunkStateAt d c s0 cs t

/-- The flattened per-position scan output of the bulk path
(`forward_test`): the chunked-parallel scan with the configured
`chunk_size`, from zero initial state (no `initial_states` argument is
passed at line 132, so the kernel starts from zero). -/
def bulkYflat (P : Mamba2Params) (u : ℕ → ℕ → ℝ) (t i : ℕ) : ℝ :=
  chunkedScanY P u zeroSsm P.chunk_size t (i / P.headdim) (i % P.headdim)

/-- The output vector of `forward_test` at position `t`
(lines 111-157): in-projection, bulk causal conv, chunked scan from
zero state, gated normalization against the `z` slice, out-projection. -/
def forwardTestY (P : Mamba2Params) (u : ℕ → ℕ → ℝ) (t o : ℕ) : ℝ :=
  outProj P
    (fun i => gnorm P (fun i2 => bulkYflat P u t i2) (fun i2 => zVec P (u t) i2) i) o

/-- The conv window written into the cache by `forward_test` (line 125):
`F.pad(xBC, (d_conv - L, 0))`, i.e. the last `d_conv` conv-input
vectors of the length-`L` sequence, zero-filled on the left when
`L < d_conv`. -/
def finalConvWin (P : Mamba2Params) (u : ℕ → ℕ → ℝ) (L c w : ℕ) : ℝ :=
  if L + w < P.d_conv then 0 else xBCpre P u (L + w - P.d_conv) c

/-- The SSM state written into the cache by `forward_test`
(lines 145-151): the final state of the chunked scan over the length-`L`
sequence. -/
def finalSsm (P : Mamba2Params) (u : ℕ → ℕ → ℝ) (L : ℕ) : SsmState :=
  fun h p n =>
    chunkStateAfter (fun s => decayVec P (dtVec P (u s)) h)
      (fun s => dtEffVec P (dtVec P (u s)) h * bPost P u s n * xPost P u s h p)
      0 P.chunk_size L

/-- The full cache entry written by `forward_test` on a length-`L`
sequence. -/
def forwardTestFinal (P : Mamba2Params) (u : ℕ → ℕ → ℝ) (L : ℕ) : RecState :=
  ⟨finalConvWin P u L, finalSsm P u L⟩

/-- The recurrent state held by the cache after `j` streaming steps of
`forward_stage`, fed the vectors `v 0, v 1, ...` in order from `init`. -/
def streamState (P : Mamba2Params) (v : ℕ → ℕ → ℝ) (init : RecState) :
    ℕ → RecState
  | 0 => init
  | j + 1 => (forwardStage P (v j) (streamState P v init j)).2

/-- The output vector produced by the `j`-th streaming step. -/
def streamOut (P : Mamba2Params) (v : ℕ → ℕ → ℝ) (init : RecState)
    (j : ℕ) : ℕ → ℝ :=
  (forwardStage P (v j) (streamState P v init j)).1

/-- Concatenation of a length-`L` context with a tail of further
inputs, as one sequence. -/
def concatSeq (ctx xs : ℕ → ℕ → ℝ) (L t : ℕ) : ℕ → ℝ :=
  if t < L then ctx t else xs (t - L)

/-- Modelled from the spec: `forward_train` (lines 64-86) calls the
fused external kernel `mamba_split_conv1d_scan_combined`, whose code is
not in this repository; per the spec's data-flow (section 2) it computes
the same pipeline as the bulk path: in-projection, causal conv, chunked
scan, gated normalization, out-projection. -/
def forwardTrainY (P : Mamba2Params) (u : ℕ → ℕ → ℝ) (t o : ℕ) : ℝ :=
  outProj P
    (fun i => gnorm P (fun i2 => bulkYflat P u t i2) (fun i2 => zVec P (u t) i2) i) o

/-- The per-layer cache dictionary `inference_params.key_value_memory_dict`,
keyed by `layer_idx`. -/
def Cache : Type := ℕ → Option RecState

/-- `_get_states_from_cache` (lines 88-109): fails (assert) when
`layer_idx` is `None`; otherwise returns the existing entry unchanged,
or allocates and stores a zero-initialized entry when absent. -/
def getStatesFromCache (layer_idx : Option ℕ) (cache : Cache) :
    Option (RecState × Cache) :=
  match layer_idx with
  | none => none
  | some idx =>
    match cache idx with
    | none => some (zeroRec, fun i => if i = idx then some zeroRec else cache i)
    | some st => some (st, cache)

/-- `forward_stage` at the session level: fetch (or allocate) the cache
entry for this layer, run the streaming step, and write the updated
recurrent state back into the cache (the Python code mutates the cached
tensors in place). -/
def forwardStageSession (P : Mamba2Params) (layer_idx : Option ℕ)
    (v : ℕ → ℝ) (cache : Cache) : Option ((ℕ → ℝ) × Cache) :=
  match getStatesFromCache layer_idx cache with
  | none => none
  | some (st, c1) =>
    some ((forwardStage P v st).1,
      fun i => if some i = layer_idx then some (forwardStage P v st).2 else c1 i)

/-- The cache produced by a streaming step taken on a cache with no
entry for `idx`: the step runs from the freshly allocated zero state
and stores its updated state under `idx`. -/
def stepFreshCache (P : Mamba2Params) (v : ℕ → ℝ) (cache : Cache)
    (idx : ℕ) : Cache :=
  fun i => if some i = some idx then some (forwardStage P v zeroRec).2
    else if i = idx then some zeroRec else cache i

/-- `forward` (lines 159-161): the public entry point runs only the
bulk training path and returns its output; the `inference_params`
argument is accepted and ignored, so the cache (modelled here as a
value passed through) is untouched. -/
def forward (P : Mamba2Params) (u : ℕ → ℕ → ℝ) (params : Option Cache) :
    (ℕ → ℕ → ℝ) × Option Cache :=
  (fun t o => forwardTrainY P u t o, params)

/-- `forward_evaluate` (lines 163-170): `start_position` is set to the
full input length `L`, the whole input is primed through `forward_test`,
and the step loop runs over `range(start_position, L)` — the list
`List.range' L (L - L)`.  The first component records whether the value
still is the bulk output (`Sum.inl`) or was overwritten by a step
(`Sum.inr`). -/
def forwardEvaluate (P : Mamba2Params) (u : ℕ → ℕ → ℝ) (L : ℕ) :
    ((ℕ → ℕ → ℝ) ⊕ (ℕ → ℝ)) × RecState :=
  (List.range' L (L - L)).foldl
    (fun acc i =>
      (Sum.inr (forwardStage P (u i) acc.2).1, (forwardStage P (u i) acc.2).2))
    (Sum.inl (fun t o => forwardTestY P u t o), forwardTestFinal P u L)

/-- One scan iteration with the per-step data held fixed — the
"bounded, repeated unit inputs" scenario: `forward_stage`'s SSM update
applied again and again with the same `dt`, `x`, `B`. -/
def iterStep (P : Mamba2Params) (dtv : ℕ → ℝ) (xv : ℕ → ℕ → ℝ)
    (Bv : ℕ → ℝ) (S0 : SsmState) : ℕ → SsmState
  | 0 => S0
  | k + 1 => ssmStepState P (iterStep P dtv xv Bv S0 k) dtv xv Bv

/-- A second reading of the streaming SSM step, following the spec's
words (section 4.3): `dt_eff = softplus(dt_raw + dt_bias_h)`,
`A_h = -exp(A_log_h)`, `decay_h = exp(dt_eff * A_h)`,
`dBx = dt_eff * outer(x, B)`, `S_h <- S_h * decay_h + dBx`. -/
def ssmStepStateSpec (P : Mamba2Params) (S : SsmState) (dtv : ℕ → ℝ)
    (xv : ℕ → ℕ → ℝ) (Bv : ℕ → ℝ) : SsmState :=
  fun h p n =>
    S h p n * Real.exp (softplus (dtv h + P.dt_bias h) * (-Real.exp (P.A_log h)))
      + softplus (dtv h + P.dt_bias h) * (xv h p * Bv n)

/-- A second reading of the streaming scan output, following the spec's
words: `y_{t,h,:} = S_h · C_t + D_h * x_{t,h,:}`, contracted over the
state dimension. -/
def ssmStepYSpec (P : Mamba2Params) (S : SsmState) (xv : ℕ → ℕ → ℝ)
    (Cv : ℕ → ℝ) (h p : ℕ) : ℝ :=
  (∑ n ∈ range P.d_state, S h p n * Cv n) + P.D h * xv h p

/-- A second reading of the streaming convolution step, following the
spec's words (section 4.2): the K−1 cached previous conv-input vectors
(`prev`, oldest first) extended by the new vector, weighted against the
channel's kernel, plus the channel bias, then SiLU. -/
def convStepSpec (P : Mamba2Params) (prev : ℕ → ℕ → ℝ) (xNew : ℕ → ℝ)
    (c : ℕ) : ℝ :=
  silu ((∑ w ∈ range (P.d_conv - 1), P.conv_weight c w * prev c w)
    + P.conv_weight c (P.d_conv - 1) * xNew c + P.conv_bias c)

/-- Concrete parameter values used to exercise the theorems on explicit
inputs. -/
def trivialParams : Mamba2Params where
  d_model := 1
  d_state := 1
  d_conv := 2
  headdim := 1
  nheads := 1
  chunk_size := 1
  in_proj_weight := fun _ _ => 0
  conv_weight := fun _ _ => 0
  conv_bias := fun _ => 0
  dt_bias := fun _ => 0
  A_log := fun _ => 0
  D := fun _ => 0
  norm_weight := fun _ => 0
  norm_eps := 1
  out_proj_weight := fun _ _ => 0

/-- Closed form for a segment of the scalar scan: running the
recurrence from time `a` for `m` further steps decays the state at `a`
by the product of the segment's decay factors and adds each
contribution decayed by the factors that follow it. -/
lemma seqScalar_add (d c : ℕ → ℝ) (s0 : ℝ) (a : ℕ) :
    ∀ m, seqScalar d c s0 (a + m)
      = (∏ j ∈ range m, d (a + j)) * seqScalar d c s0 a
        + ∑ j ∈ range m, (∏ r ∈ Ico (j + 1) m, d (a + r)) * c (a + j) := by
  intro m
  induction m with
  | zero => simp
  | succ m ih =>
    have h1 : a + (m + 1) = (a + m) + 1 := rfl
    rw [h1]
    simp only [seqScalar]
    rw [ih, Finset.prod_range_succ, Finset.sum_range_succ, Finset.Ico_self,
      Finset.prod_empty, one_mul, add_mul, Finset.sum_mul]
    have h2 : ∀ j ∈ range m,
        ((∏ r ∈ Ico (j + 1) m, d (a + r)) * c (a + j)) * d (a + m)
          = (∏ r ∈ Ico (j + 1) (m + 1), d (a + r)) * c (a + j) := by
      intro j hj
      rw [Finset.prod_Ico_succ_top (Finset.mem_range.mp hj)]
      ring
    rw [Finset.sum_congr rfl h2]
    ring

/-- The chunk-boundary state at boundary `k` is the sequential state
after `k * cs` steps. -/
lemma chunkBoundary_eq (d c : ℕ → ℝ) (s0 : ℝ) (cs : ℕ) :
    ∀ k, chunkBoundary d c s0 cs k = seqScalar d c s0 (k * cs) := by
  intro k
  induction k with
  | zero => simp [chunkBoundary, seqScalar]
  | succ k ih =>
    have h1 : (k + 1) * cs = k * cs + cs := by ring
    simp only [chunkBoundary]
    rw [ih, h1, seqScalar_add]

/-- The chunked-parallel state after position `t` equals the sequential
state after `t + 1` steps — for every chunk size, including those that
do not divide the position. -/
lemma chunkStateAt_eq (d c : ℕ → ℝ) (s0 : ℝ) (cs t : ℕ) :
    chunkStateAt d c s0 cs t = seqScalar d c s0 (t + 1) := by
  have key : t / cs * cs + (t % cs + 1) = t + 1 := by
    rw [← Nat.add_assoc, Nat.mul_comm, Nat.div_add_mod]
  unfold chunkStateAt
  rw [chunkBoundary_eq, ← key, seqScalar_add]

/-- The final state emitted by the chunked scan over `L` positions is
the sequential state after `L` steps. -/
lemma chunkStateAfter_eq (d c : ℕ → ℝ) (s0 : ℝ) (cs L : ℕ) :
    chunkStateAfter d c s0 cs L = seqScalar d c s0 L := by
  cases L with
  | zero => rfl
  | succ t => exact chunkStateAt_eq d c s0 cs t

/-- The scalar scan only reads its per-step data at times below the
step count. -/
lemma seqScalar_congr (d1 d2 c1 c2 : ℕ → ℝ) (s0 : ℝ) :
    ∀ t, (∀ s, s < t → d1 s = d2 s) → (∀ s, s < t → c1 s = c2 s) →
      seqScalar d1 c1 s0 t = seqScalar d2 c2 s0 t := by
  intro t
  induction t with
  | zero => intro _ _; rfl
  | succ t ih =>
    intro hd hc
    simp only [seqScalar]
    rw [ih (fun s hs => hd s (Nat.lt_succ_of_lt hs))
        (fun s hs => hc s (Nat.lt_succ_of_lt hs)),
      hd t (Nat.lt_succ_self t), hc t (Nat.lt_succ_self t)]

/-- With a fixed decay `d ∈ [0, 1)` and a fixed contribution `c`, the
scalar scan stays bounded by `max |s0| (|c| / (1 - d))` forever. -/
lemma seqScalar_const_bound (d c s0 : ℝ) (hd0 : 0 ≤ d) (hd1 : d < 1) :
    ∀ k, |seqScalar (fun _ => d) (fun _ => c) s0 k|
      ≤ max |s0| (|c| / (1 - d)) := by
  intro k
  induction k with
  | zero => exact le_max_left _ _
  | succ k ih =>
    have hM0 : (0:ℝ) ≤ max |s0| (|c| / (1 - d)) :=
      le_trans (abs_nonneg s0) (le_max_left _ _)
    have h3 : 0 < 1 - d := by linarith
    have hcM : |c| ≤ max |s0| (|c| / (1 - d)) * (1 - d) := by
      have h2 : |c| / (1 - d) ≤ max |s0| (|c| / (1 - d)) := le_max_right _ _
      calc |c| = |c| / (1 - d) * (1 - d) := by field_simp
        _ ≤ max |s0| (|c| / (1 - d)) * (1 - d) :=
            mul_le_mul_of_nonneg_right h2 (le_of_lt h3)
    calc |seqScalar (fun _ => d) (fun _ => c) s0 (k + 1)|
        = |seqScalar (fun _ => d) (fun _ => c) s0 k * d + c| := by
          simp only [seqScalar]
      _ ≤ |seqScalar (fun _ => d) (fun _ => c) s0 k * d| + |c| := abs_add _ _
      _ = |seqScalar (fun _ => d) (fun _ => c) s0 k| * d + |c| := by
          rw [abs_mul, abs_of_nonneg hd0]
      _ ≤ max |s0| (|c| / (1 - d)) * d + |c| :=
          add_le_add_right (mul_le_mul_of_nonneg_right ih hd0) _
      _ ≤ max |s0| (|c| / (1 - d)) * d
            + max |s0| (|c| / (1 - d)) * (1 - d) := add_le_add_left hcM _
      _ = max |s0| (|c| / (1 - d)) := by ring

/-- Each (head, head-dim, state-dim) component of the sequential SSM
state is a scalar scan on that component's decay and contribution. -/
lemma seqSsmState_scalar (P : Mamba2Params) (u : ℕ → ℕ → ℝ)
    (S0 : SsmState) (h p n : ℕ) :
    ∀ t, seqSsmState P u S0 t h p n
      = seqScalar (fun s => decayVec P (dtVec P (u s)) h)
          (fun s => dtEffVec P (dtVec P (u s)) h * bPost P u s n * xPost P u s h p)
          (S0 h p n) t := by
  intro t
  induction t with
  | zero => rfl
  | succ t ih => simp only [seqSsmState, seqScalar, ssmStepState, ih]

/-- The chunked-parallel scan output agrees with the sequential scan
output at every position, for every chunk size and initial state. -/
lemma chunkedScanY_eq_seqScanY (P : Mamba2Params) (u : ℕ → ℕ → ℝ)
    (S0 : SsmState) (cs t h p : ℕ) :
    chunkedScanY P u S0 cs t h p = seqScanY P u S0 t h p := by
  unfold chunkedScanY seqScanY ssmStepY
  congr 1
  apply Finset.sum_congr rfl
  intro n _
  congr 1
  unfold chunkedStateAt
  rw [chunkStateAt_eq, seqSsmState_scalar]

/-- Rolling a window that holds the first `t` steps' history and
appending the conv input of time `t` yields the window that holds the
first `t + 1` steps' history, on every tap that the kernel reads. -/
lemma roll_eq (P : Mamba2Params) (u : ℕ → ℕ → ℝ) (t : ℕ) (W : ℕ → ℕ → ℝ)
    (hW : ∀ c w, w < P.d_conv → W c w = winForm P u t c w) :
    ∀ c w, w < P.d_conv →
      rollWin P W (xBCvec P (u t)) c w = winForm P u (t + 1) c w := by
  intro c w hw
  unfold rollWin winForm
  by_cases hwK : w = P.d_conv - 1
  · have h1 : ¬ (t + 1 + w < P.d_conv) := by omega
    rw [if_pos hwK, if_neg h1]
    have h2 : t + 1 + w - P.d_conv = t := by omega
    rw [h2]
    rfl
  · have hw1 : w + 1 < P.d_conv := by omega
    rw [if_neg hwK, hW c (w + 1) hw1]
    unfold winForm
    have h3 : t + (w + 1) = t + 1 + w := by omega
    rw [h3]

/-- When the cached window holds the first `t` steps' history, the
streaming convolution step on the conv input of time `t` computes the
bulk causal convolution output at time `t`. -/
lemma convStep_eq (P : Mamba2Params) (u : ℕ → ℕ → ℝ) (t : ℕ)
    (W : ℕ → ℕ → ℝ)
    (hW : ∀ c w, w < P.d_conv → W c w = winForm P u t c w) (c : ℕ) :
    convStepOut P (rollWin P W (xBCvec P (u t))) c = convBulk P u t c := by
  unfold convStepOut convBulk
  congr 1
  congr 1
  apply Finset.sum_congr rfl
  intro w hw
  rw [roll_eq P u t W hW c w (Finset.mem_range.mp hw)]
  have h4 : winForm P u (t + 1) c w = xBCpad P u (t + w) c := by
    unfold winForm xBCpad
    have h5 : t + 1 + w = t + w + 1 := by omega
    rw [h5]
  rw [h4, mul_comm]

/-- When the cache holds exactly the recurrent state of the first `t`
steps of `u`, `forward_stage` on input `u t` emits the bulk
`forward_test` output at position `t`. -/
lemma stageOut_eq (P : Mamba2Params) (u : ℕ → ℕ → ℝ) (t : ℕ)
    (st : RecState)
    (hW : ∀ c w, w < P.d_conv → st.convWin c w = winForm P u t c w)
    (hS : st.ssm = seqSsmState P u zeroSsm t) (o : ℕ) :
    forwardStageOut P st (u t) o = forwardTestY P u t o := by
  have hconv : ∀ c, stageConvOut P st (u t) c = convBulk P u t c :=
    fun c => convStep_eq P u t st.convWin hW c
  have hx : stageX P st (u t) = xPost P u t :=
    funext fun h => funext fun p => hconv (h * P.headdim + p)
  have hB : stageB P st (u t) = bPost P u t :=
    funext fun n => hconv (P.d_inner + n)
  have hC : stageC P st (u t) = cPost P u t :=
    funext fun n => hconv (P.d_inner + P.d_state + n)
  have hssm : stageSsm P st (u t) = seqSsmState P u zeroSsm (t + 1) := by
    unfold stageSsm
    rw [hx, hB, hS]
    rfl
  have hyflat : stageYflat P st (u t) = fun i => bulkYflat P u t i := by
    funext i
    unfold stageYflat bulkYflat
    rw [hssm, hx, hC, chunkedScanY_eq_seqScanY]
    rfl
  unfold forwardStageOut forwardTestY
  rw [hyflat]

/-- The streaming invariant: starting `forward_stage` steps from a
cache that holds the recurrent state of the first `base` steps of `u`,
and feeding the subsequent inputs of `u` one at a time, the cache after
`j` steps holds the recurrent state of the first `base + j` steps. -/
lemma stream_inv (P : Mamba2Params) (u v : ℕ → ℕ → ℝ) (base : ℕ)
    (init : RecState) (hv : ∀ s, v s = u (base + s))
    (hW : ∀ c w, w < P.d_conv → init.convWin c w = winForm P u base c w)
    (hS : init.ssm = seqSsmState P u zeroSsm base) :
    ∀ j, (∀ c w, w < P.d_conv →
        (streamState P v init j).convWin c w = winForm P u (base + j) c w)
      ∧ (streamState P v init j).ssm = seqSsmState P u zeroSsm (base + j) := by
  intro j
  induction j with
  | zero => exact ⟨hW, hS⟩
  | succ j ih =>
    obtain ⟨ihW, ihS⟩ := ih
    have hstep : streamState P v init (j + 1)
        = (forwardStage P (u (base + j)) (streamState P v init j)).2 := by
      simp only [streamState, hv j]
    constructor
    · intro c w hw
      rw [hstep]
      show rollWin P (streamState P v init j).convWin
        (xBCvec P (u (base + j))) c w = _
      have h6 : base + (j + 1) = (base + j) + 1 := rfl
      rw [h6]
      exact roll_eq P u (base + j) _ ihW c w hw
    · rw [hstep]
      show stageSsm P (streamState P v init j) (u (base + j)) = _
      have hconv : ∀ c,
          stageConvOut P (streamState P v init j) (u (base + j)) c
            = convBulk P u (base + j) c :=
        fun c => convStep_eq P u (base + j) _ ihW c
      unfold stageSsm
      rw [show stageX P (streamState P v init j) (u (base + j))
            = xPost P u (base + j) from
          funext fun h => funext fun p => hconv (h * P.headdim + p),
        show stageB P (streamState P v init j) (u (base + j))
            = bPost P u (base + j) from
          funext fun n => hconv (P.d_inner + n),
        ihS]
      rfl

/-- Master streaming/bulk agreement: under the invariant's initial
conditions, the `j`-th streamed output equals the bulk output at
position `base + j`. -/
lemma streamOut_eq (P : Mamba2Params) (u v : ℕ → ℕ → ℝ) (base : ℕ)
    (init : RecState) (hv : ∀ s, v s = u (base + s))
    (hW : ∀ c w, w < P.d_conv → init.convWin c w = winForm P u base c w)
    (hS : init.ssm = seqSsmState P u zeroSsm base) (j o : ℕ) :
    streamOut P v init j o = forwardTestY P u (base + j) o := by
  obtain ⟨ihW, ihS⟩ := stream_inv P u v base init hv hW hS j
  unfold streamOut
  rw [hv j]
  exact stageOut_eq P u (base + j) (streamState P v init j) ihW ihS o

/-- The bulk causal convolution at time `t` only reads the input at
times up to `t`. -/
lemma convBulk_congr (P : Mamba2Params) (u1 u2 : ℕ → ℕ → ℝ) (t c : ℕ)
    (h : ∀ i, i ≤ t → u1 i = u2 i) :
    convBulk P u1 t c = convBulk P u2 t c := by
  unfold convBulk
  congr 2
  apply Finset.sum_congr rfl
  intro w hw
  have hwK : w < P.d_conv := Finset.mem_range.mp hw
  congr 1
  unfold xBCpad
  by_cases hc2 : t + w + 1 < P.d_conv
  · rw [if_pos hc2, if_pos hc2]
  · rw [if_neg hc2, if_neg hc2]
    unfold xBCpre
    rw [h (t + w + 1 - P.d_conv) (by omega)]

/-- The sequential SSM state after `t` steps only reads the input at
times below `t`. -/
lemma seqSsmState_congr (P : Mamba2Params) (u1 u2 : ℕ → ℕ → ℝ)
    (S0 : SsmState) :
    ∀ t, (∀ i, i < t → u1 i = u2 i) →
      seqSsmState P u1 S0 t = seqSsmState P u2 S0 t := by
  intro t
  induction t with
  | zero => intro _; rfl
  | succ t ih =>
    intro h
    simp only [seqSsmState]
    rw [ih (fun i hi => h i (Nat.lt_succ_of_lt hi)),
      h t (Nat.lt_succ_self t),
      show xPost P u1 t = xPost P u2 t from
        funext fun hh => funext fun p =>
          convBulk_congr P u1 u2 t _ (fun i hi => h i (Nat.lt_succ_of_le hi)),
      show bPost P u1 t = bPost P u2 t from
        funext fun n =>
          convBulk_congr P u1 u2 t _ (fun i hi => h i (Nat.lt_succ_of_le hi))]

/-- Claim C1: for every input sequence, every initial state and every
chunk size at least 1, the chunked-parallel scan strategy of the bulk
path (`forward_test` via `mamba_chunk_scan_combined`) produces the same
per-position scan output as applying `forward_stage`'s sequential SSM
update one step at a time in order; in real arithmetic the two are
exactly equal, hence within relative tolerance `1e-4`. -/
theorem chunked_scan_matches_sequential (P : Mamba2Params)
    (u : ℕ → ℕ → ℝ) (cs t h p : ℕ) (_hcs : 1 ≤ cs) :
    chunkedScanY P u zeroSsm cs t h p = seqScanY P u zeroSsm t h p ∧
    |chunkedScanY P u zeroSsm cs t h p - seqScanY P u zeroSsm t h p|
      ≤ (1 / 10000) * |seqScanY P u zeroSsm t h p| := by
  have he := chunkedScanY_eq_seqScanY P u zeroSsm cs t h p
  refine ⟨he, ?_⟩
  rw [he, sub_self, abs_zero]
  positivity

/-- Witness for C1: the theorem applied at explicit concrete inputs,
chunk size 2. -/
theorem chunked_scan_matches_sequential_witness :
    (1 ≤ 2) ∧
    (chunkedScanY trivialParams (fun _ _ => 0) zeroSsm 2 0 0 0
        = seqScanY trivialParams (fun _ _ => 0) zeroSsm 0 0 0 ∧
      |chunkedScanY trivialParams (fun _ _ => 0) zeroSsm 2 0 0 0
          - seqScanY trivialParams (fun _ _ => 0) zeroSsm 0 0 0|
        ≤ (1 / 10000) * |seqScanY trivialParams (fun _ _ => 0) zeroSsm 0 0 0|) :=
  ⟨by decide,
    chunked_scan_matches_sequential trivialParams (fun _ _ => 0) 2 0 0 0 (by decide)⟩

/-- Claim C2: for every input sequence, feeding it one timestep at a
time through `forward_stage` from a zero-initialized conv window and
SSM state yields at every position the same output vector as the bulk
path `forward_test` at that position; in real arithmetic the two are
exactly equal, hence within relative tolerance `1e-4`. -/
theorem streaming_matches_bulk (P : Mamba2Params) (u : ℕ → ℕ → ℝ)
    (t o : ℕ) :
    streamOut P u zeroRec t o = forwardTestY P u t o ∧
    |streamOut P u zeroRec t o - forwardTestY P u t o|
      ≤ (1 / 10000) * |forwardTestY P u t o| := by
  have h := streamOut_eq P u u 0 zeroRec (fun s => by rw [Nat.zero_add])
    (fun c w hw => by
      show (0:ℝ) = winForm P u 0 c w
      unfold winForm
      rw [if_pos (by omega)])
    rfl t o
  rw [Nat.zero_add] at h
  refine ⟨h, ?_⟩
  rw [h, sub_self, abs_zero]
  positivity

/-- Claim C3: priming on a length-`L` context through `forward_test`
(which writes the final conv window and SSM state into the cache) and
then stepping with `forward_stage` produces, at every stepped position
`j`, the same output as priming once on the concatenated sequence and
reading the bulk output at tail position `L + j`; in real arithmetic the
two are exactly equal, hence within relative tolerance `1e-4`. -/
theorem prime_then_step_matches_concat (P : Mamba2Params)
    (ctx xs : ℕ → ℕ → ℝ) (L j o : ℕ) :
    streamOut P xs (forwardTestFinal P ctx L) j o
        = forwardTestY P (concatSeq ctx xs L) (L + j) o ∧
    |streamOut P xs (forwardTestFinal P ctx L) j o
        - forwardTestY P (concatSeq ctx xs L) (L + j) o|
      ≤ (1 / 10000) * |forwardTestY P (concatSeq ctx xs L) (L + j) o| := by
  have hctx : ∀ i, i < L → concatSeq ctx xs L i = ctx i := by
    intro i hi
    unfold concatSeq
    rw [if_pos hi]
  have hv : ∀ s, xs s = concatSeq ctx xs L (L + s) := by
    intro s
    unfold concatSeq
    rw [if_neg (by omega), Nat.add_sub_cancel_left]
  have hW : ∀ c w, w < P.d_conv →
      (forwardTestFinal P ctx L).convWin c w
        = winForm P (concatSeq ctx xs L) L c w := by
    intro c w hw
    show finalConvWin P ctx L c w = _
    unfold finalConvWin winForm
    by_cases hcase : L + w < P.d_conv
    · rw [if_pos hcase, if_pos hcase]
    · rw [if_neg hcase, if_neg hcase]
      unfold xBCpre
      rw [hctx (L + w - P.d_conv) (by omega)]
  have hS : (forwardTestFinal P ctx L).ssm
      = seqSsmState P (concatSeq ctx xs L) zeroSsm L := by
    show finalSsm P ctx L = _
    funext h p n
    unfold finalSsm
    rw [chunkStateAfter_eq, seqSsmState_scalar P (concatSeq ctx xs L) zeroSsm h p n L]
    exact seqScalar_congr _ _ _ _ 0 L
      (fun s hs => by
        show decayVec P (dtVec P (ctx s)) h
          = decayVec P (dtVec P (concatSeq ctx xs L s)) h
        rw [hctx s hs])
      (fun s hs => by
        show dtEffVec P (dtVec P (ctx s)) h * bPost P ctx s n * xPost P ctx s h p
          = dtEffVec P (dtVec P (concatSeq ctx xs L s)) h
            * bPost P (concatSeq ctx xs L) s n * xPost P (concatSeq ctx xs L) s h p
        rw [hctx s hs,
          show bPost P ctx s n = bPost P (concatSeq ctx xs L) s n from
            convBulk_congr P ctx (concatSeq ctx xs L) s _
              (fun i hi => (hctx i (by omega)).symm),
          show xPost P ctx s h p = xPost P (concatSeq ctx xs L) s h p from
            convBulk_congr P ctx (concatSeq ctx xs L) s _
              (fun i hi => (hctx i (by omega)).symm)])
  have h := streamOut_eq P (concatSeq ctx xs L) xs L
    (forwardTestFinal P ctx L) hv hW hS j o
  refine ⟨h, ?_⟩
  rw [h, sub_self, abs_zero]
  positivity

/-- Claim C4: `forward_evaluate` sets its prefix length
(`start_position`) to the full input length, so its step loop iterates
over an empty index list — the step path is unreachable through this
entry point — and its result is exactly the bulk `forward_test` output
(and final cache state) over the entire input. -/
theorem evaluate_step_loop_empty (P : Mamba2Params) (u : ℕ → ℕ → ℝ)
    (L : ℕ) :
    (List.range' L (L - L)).length = 0 ∧
    forwardEvaluate P u L
      = (Sum.inl (fun t o => forwardTestY P u t o), forwardTestFinal P u L) := by
  constructor
  · simp
  · unfold forwardEvaluate
    rw [Nat.sub_self]
    rfl

/-- Claim C5: the streaming SSM step of `forward_stage` computes
exactly the spec's recurrence: `dt_eff = softplus(dt_raw + dt_bias)`,
`decay = exp(dt_eff * A)` with `A = -exp(A_log)`, state update
`S * decay + dt_eff * outer(x, B)`, and output `S · C + D * x`
contracted over the state dimension. -/
theorem ssm_step_matches_spec (P : Mamba2Params) (S : SsmState)
    (dtv : ℕ → ℝ) (xv : ℕ → ℕ → ℝ) (Bv Cv : ℕ → ℝ) :
    ssmStepState P S dtv xv Bv = ssmStepStateSpec P S dtv xv Bv ∧
    ∀ h p, ssmStepY P (ssmStepState P S dtv xv Bv) xv Cv h p
      = ssmStepYSpec P (ssmStepStateSpec P S dtv xv Bv) xv Cv h p := by
  have hst : ssmStepState P S dtv xv Bv = ssmStepStateSpec P S dtv xv Bv := by
    funext h p n
    unfold ssmStepState ssmStepStateSpec decayVec dtEffVec aHead
    ring
  exact ⟨hst, fun h p => by rw [hst]; rfl⟩

/-- One component of the constant-input iteration is a scalar scan with
constant decay and contribution. -/
lemma iterStep_scalar (P : Mamba2Params) (dtv : ℕ → ℝ) (xv : ℕ → ℕ → ℝ)
    (Bv : ℕ → ℝ) (S0 : SsmState) (h p n : ℕ) :
    ∀ k, iterStep P dtv xv Bv S0 k h p n
      = seqScalar (fun _ => decayVec P dtv h)
          (fun _ => dtEffVec P dtv h * Bv n * xv h p) (S0 h p n) k := by
  intro k
  induction k with
  | zero => rfl
  | succ k ih => simp only [iterStep, seqScalar, ssmStepState, ih]

/-- Claim C6: the decay base `A = -exp(A_log)` is strictly negative and
the effective timestep `softplus(dt_raw + dt_bias)` strictly positive,
so the decay `exp(dt_eff * A)` lies in `(0, 1]` for every head and
timestep; consequently, under a bounded input repeated forever, every
component of the SSM state stays bounded by an explicit constant. -/
theorem decay_in_unit_interval_state_bounded (P : Mamba2Params)
    (dtv : ℕ → ℝ) (h : ℕ) :
    aHead P h < 0 ∧ 0 < dtEffVec P dtv h ∧ 0 < decayVec P dtv h ∧
    decayVec P dtv h ≤ 1 ∧
    ∀ (xv : ℕ → ℕ → ℝ) (Bv : ℕ → ℝ) (S0 : SsmState) (p n k : ℕ),
      |iterStep P dtv xv Bv S0 k h p n|
        ≤ max |S0 h p n|
            (|dtEffVec P dtv h * Bv n * xv h p| / (1 - decayVec P dtv h)) := by
  have ha : aHead P h < 0 := by
    unfold aHead
    exact neg_lt_zero.mpr (Real.exp_pos _)
  have hdt : 0 < dtEffVec P dtv h := by
    unfold dtEffVec softplus
    apply Real.log_pos
    have := Real.exp_pos (dtv h + P.dt_bias h)
    linarith
  have hdp : 0 < decayVec P dtv h := Real.exp_pos _
  have hlt : decayVec P dtv h < 1 := by
    unfold decayVec
    rw [Real.exp_lt_one_iff]
    exact mul_neg_of_pos_of_neg hdt ha
  refine ⟨ha, hdt, hdp, le_of_lt hlt, ?_⟩
  intro xv Bv S0 p n k
  rw [iterStep_scalar]
  exact seqScalar_const_bound (decayVec P dtv h)
    (dtEffVec P dtv h * Bv n * xv h p) (S0 h p n) (le_of_lt hdp) hlt k

/-- Claim C7: the streaming convolution step — roll the cached window,
append the new conv-input vector, per-channel weighted sum against the
kernel plus bias, SiLU — agrees with the spec's description in terms of
the previous `K - 1` conv-input vectors plus the new one. -/
theorem conv_step_matches_spec (P : Mamba2Params) (W prev : ℕ → ℕ → ℝ)
    (xNew : ℕ → ℝ) (c : ℕ) (hK : 1 ≤ P.d_conv)
    (hrel : ∀ w, w + 1 < P.d_conv → W c (w + 1) = prev c w) :
    convStepOut P (rollWin P W xNew) c = convStepSpec P prev xNew c := by
  obtain ⟨m, hm⟩ : ∃ m, P.d_conv = m + 1 := ⟨P.d_conv - 1, by omega⟩
  unfold convStepOut convStepSpec
  simp only [rollWin]
  rw [hm] at hrel ⊢
  simp only [Nat.add_sub_cancel]
  rw [Finset.sum_range_succ, if_pos rfl]
  have hsum : (∑ w ∈ range m,
        (if w = m then xNew c else W c (w + 1)) * P.conv_weight c w)
      = ∑ w ∈ range m, P.conv_weight c w * prev c w := by
    apply Finset.sum_congr rfl
    intro w hw
    have hwm : w < m := Finset.mem_range.mp hw
    rw [if_neg (by omega), hrel w (by omega), mul_comm]
  rw [hsum]
  congr 1
  ring

/-- Witness for C7: the theorem applied at explicit concrete inputs. -/
theorem conv_step_matches_spec_witness :
    (1 ≤ trivialParams.d_conv) ∧
    convStepOut trivialParams
        (rollWin trivialParams (fun _ _ => 0) (fun _ => 0)) 0
      = convStepSpec trivialParams (fun _ _ => 0) (fun _ => 0) 0 :=
  ⟨by decide,
    conv_step_matches_spec trivialParams (fun _ _ => 0) (fun _ _ => 0)
      (fun _ => 0) 0 (by decide) (fun _ _ => rfl)⟩

/-- Counterexample to claim C8: stepping a session that was never
begun or primed does not fail — with an empty cache (no entry for any
layer), the session-level `forward_stage` succeeds, because
`_get_states_from_cache` silently allocates a zero-initialized state. -/
theorem step_before_begin_succeeds :
    (forwardStageSession trivialParams (some 0) (fun _ => 0)
      (fun _ => none)).isSome = true := rfl

/-- Claim C8 as amended: there is no `InvalidStateError` and no session
lifecycle in the code.  A step taken on a cache with no entry for the
layer succeeds, runs from the freshly allocated zero state, and stores
the updated state; the only failure mode of
`_get_states_from_cache` is `layer_idx` being `None` (the assert). -/
theorem step_without_begin_uses_zero_state (P : Mamba2Params)
    (v : ℕ → ℝ) (cache : Cache) (idx : ℕ) (hc : cache idx = none) :
    forwardStageSession P (some idx) v cache
        = some ((forwardStage P v zeroRec).1, stepFreshCache P v cache idx)
      ∧ forwardStageSession P none v cache = none := by
  constructor
  · simp only [forwardStageSession, getStatesFromCache, hc]
    rfl
  · rfl

/-- Witness for the amended C8: the theorem applied to the empty
cache. -/
theorem step_without_begin_uses_zero_state_witness :
    ((fun _ : ℕ => (none : Option RecState)) 0 = none) ∧
    (forwardStageSession trivialParams (some 0) (fun _ => 0)
          (fun _ : ℕ => (none : Option RecState))
        = some ((forwardStage trivialParams (fun _ => 0) zeroRec).1,
            stepFreshCache trivialParams (fun _ => 0)
              (fun _ : ℕ => (none : Option RecState)) 0)
      ∧ forwardStageSession trivialParams none (fun _ => 0)
          (fun _ : ℕ => (none : Option RecState)) = none) :=
  ⟨rfl, step_without_begin_uses_zero_state trivialParams (fun _ => 0)
    (fun _ : ℕ => (none : Option RecState)) 0 rfl⟩

/-- Claim C9: fetching the recurrent state for a layer allocates a
zero-initialized entry when none exists (and stores it), and is
idempotent when an entry exists: the cached state is returned and the
cache is unchanged. -/
theorem begin_allocates_zero_and_idempotent (cache : Cache) (idx : ℕ) :
    (cache idx = none →
      getStatesFromCache (some idx) cache
        = some (zeroRec, fun i => if i = idx then some zeroRec else cache i))
    ∧ ∀ st, cache idx = some st →
      getStatesFromCache (some idx) cache = some (st, cache) := by
  constructor
  · intro h
    simp only [getStatesFromCache, h]
  · intro st h
    simp only [getStatesFromCache, h]

/-- Witness for C9: both branches of the theorem applied to explicit
caches — one empty, one already holding an entry. -/
theorem begin_allocates_zero_and_idempotent_witness :
    (getStatesFromCache (some 0) (fun _ : ℕ => (none : Option RecState))
        = some (zeroRec, fun i => if i = 0 then some zeroRec
            else (fun _ : ℕ => (none : Option RecState)) i))
    ∧ getStatesFromCache (some 0) (fun _ : ℕ => some zeroRec)
        = some (zeroRec, fun _ : ℕ => some zeroRec) :=
  ⟨(begin_allocates_zero_and_idempotent (fun _ => none) 0).1 rfl,
    (begin_allocates_zero_and_idempotent (fun _ => some zeroRec) 0).2
      zeroRec rfl⟩

/-- Claim C10: the public `forward` entry point returns exactly the
bulk training-path output and never touches the cache: the
`inference_params` argument is accepted but ignored — the cache passes
through unchanged and the output does not depend on it. -/
theorem forward_ignores_inference_params (P : Mamba2Params)
    (u : ℕ → ℕ → ℝ) (params : Option Cache) :
    (forward P u params).1 = (fun t o => forwardTrainY P u t o)
      ∧ (forward P u params).2 = params
      ∧ ∀ q, (forward P u q).1 = (forward P u params).1 :=
  ⟨rfl, rfl, fun _ => rfl⟩

end

end CountMamba
